import Mathlib

/-!
Verification of the streaming authenticated-encryption engine of
gigatar/file-encryption (pkg/encryption/encryption.go, pkg/kdf/kdf.go).

Byte sequences are modelled as `List Nat` (each entry a byte value).
Files are modelled as the byte sequences read from / written to them, so
`EncryptFile` and `DecryptFile` become functions from the input byte
stream to the output byte stream (or an error).  The external
cryptographic primitives from Go's standard library (`aes.NewCipher`,
`cipher.NewGCM`) and the key provider (`kdf.GetKey`) are parameters: an
abstract block cipher, an abstract AEAD and an abstract key-derivation
function, exactly as the code consumes them.  Errors carry no payload
(`Except Unit`): the code only ever propagates them.
-/

namespace FileEncryption

/-- `chunkSize = 64 * 1024`, from the `const` block of encryption.go. -/
def chunkSize : Nat := 64 * 1024

/-- `saltSize = 16`, from the `const` block of encryption.go. -/
def saltSize : Nat := 16

/-- Big-endian byte encoding of `x` into `n` bytes, as written by
`binary.BigEndian.PutUint32` / `PutUint64` (the recursion truncates `x`
modulo `2 ^ (8 * n)`, matching the Go integer conversions). -/
def toBE : Nat → Nat → List Nat
  | 0, _ => []
  | n + 1, x => toBE n (x / 256) ++ [x % 256]

/-- Big-endian decoding of a byte list, as read by
`binary.BigEndian.Uint32`. -/
def fromBE (bs : List Nat) : Nat :=
  bs.foldl (fun acc b => acc * 256 + b) 0

/-- A keyed block cipher instance, as returned by `aes.NewCipher(key)`:
`Encrypt` maps a 16-byte source block to the 16-byte destination block. -/
structure Block where
  Encrypt : List Nat → List Nat

/-- A keyed AEAD instance, as returned by `cipher.NewGCM(block)`:
`Seal nonce plaintext` is `gcm.Seal(nil, nonce, plaintext, nil)` and
`Open nonce ciphertext` is `gcm.Open(nil, nonce, ciphertext, nil)`
(with `none` standing for a non-nil error). -/
structure AEAD where
  Seal : List Nat → List Nat → List Nat
  Open : List Nat → List Nat → Option (List Nat)

/-- The 16-byte destination buffer `make([]byte, 16)` that
`block.Encrypt(dst, src)` fills: whatever the abstract block cipher
returns is written into a buffer of exactly `n` zero bytes. -/
def writeBuf (n : Nat) (src : List Nat) : List Nat :=
  (src ++ List.replicate n 0).take n

/-- The pure value computed by `generateSyntheticIV` once the block
cipher exists: encrypt a 16-byte all-zero block, copy the first 12 bytes
into the IV buffer, then `syntheticIV[i] ^= plainText[i]` for
`i < len(plainText) && i < len(syntheticIV)`. -/
def sivBytes (block : Block) (plainText : List Nat) : List Nat :=
  let zeroBlock := List.replicate 16 0
  let blockCipherText := writeBuf 16 (block.Encrypt zeroBlock)
  let syntheticIV := blockCipherText.take 12
  List.zipWith Nat.xor syntheticIV plainText ++ syntheticIV.drop plainText.length

/-- `generateSyntheticIV(key, plainText)` from encryption.go,
parameterised by the `aes.NewCipher` it calls. -/
def generateSyntheticIV (newCipher : List Nat → Except Unit Block)
    (key plainText : List Nat) : Except Unit (List Nat) :=
  match newCipher key with
  | .error e => .error e
  | .ok block => .ok (sivBytes block plainText)

/-- The `for` loop at the end of `EncryptFile` ("Process rest of file"):
read up to `chunkSize` bytes; stop when zero bytes are read; otherwise
overwrite `nonce[4:]` with the big-endian counter, write the nonce, the
4-byte ciphertext length and the ciphertext, and continue with the
counter incremented. -/
def encryptRest (gcm : AEAD) (nonceBase : List Nat) (nonceCounter : Nat)
    (data : List Nat) : List Nat :=
  if _h : data = [] then []
  else
    let nonce := nonceBase.take 4 ++ toBE 8 nonceCounter
    let ct := gcm.Seal nonce (data.take chunkSize)
    nonce ++ toBE 4 ct.length ++ ct ++
      encryptRest gcm nonceBase (nonceCounter + 1) (data.drop chunkSize)
termination_by data.length
decreasing_by
  simp only [List.length_drop]
  have hpos : 0 < data.length := List.length_pos.mpr _h
  simp [chunkSize]
  omega

/-- `EncryptFile` from encryption.go.  The randomly generated salt and
the input file's bytes are parameters; the result is the byte sequence
written to the output file. -/
def EncryptFile (newCipher : List Nat → Except Unit Block)
    (newGCM : Block → Except Unit AEAD)
    (getKey : List Nat → Except Unit (List Nat))
    (salt plaintext : List Nat) : Except Unit (List Nat) :=
  match getKey salt with
  | .error e => .error e
  | .ok key =>
    let firstChunk := plaintext.take chunkSize
    match generateSyntheticIV newCipher key firstChunk with
    | .error e => .error e
    | .ok nonce =>
      match newCipher key with
      | .error e => .error e
      | .ok block =>
        match newGCM block with
        | .error e => .error e
        | .ok gcm =>
          let ct := gcm.Seal nonce firstChunk
          .ok (salt ++ nonce ++ toBE 4 ct.length ++ ct ++
            encryptRest gcm nonce 0 (plaintext.drop chunkSize))

/-- The frame-reading loop of `DecryptFile`.  `io.ReadFull` of the
12-byte nonce returns `io.EOF` (loop break) exactly when zero bytes
remain, and `io.ErrUnexpectedEOF` (returned to the caller) on a partial
read; the length and ciphertext reads return any non-nil error to the
caller.  `io.ReadFull` of a zero-length buffer succeeds even at EOF, so
`ctLen = 0` proceeds to `gcm.Open`. -/
def decryptLoop (gcm : AEAD) (data : List Nat) : Except Unit (List Nat) :=
  if _h : data = [] then .ok []
  else if data.length < 12 then .error ()
  else
    let nonce := data.take 12
    let afterNonce := data.drop 12
    if afterNonce.length < 4 then .error ()
    else
      let ctLen := fromBE (afterNonce.take 4)
      let body := afterNonce.drop 4
      if body.length < ctLen then .error ()
      else
        match gcm.Open nonce (body.take ctLen) with
        | none => .error ()
        | some pt =>
          match decryptLoop gcm (body.drop ctLen) with
          | .error e => .error e
          | .ok out => .ok (pt ++ out)
termination_by data.length
decreasing_by
  simp only [List.length_drop]
  omega

/-- `DecryptFile` from encryption.go.  The input file's bytes are a
parameter; the result is the byte sequence written to the output file.
Note the translation of the `cipher.NewGCM` error branch: the source
executes `return nil` there, i.e. it reports success having written
nothing to the (already created, empty) output file. -/
def DecryptFile (newCipher : List Nat → Except Unit Block)
    (newGCM : Block → Except Unit AEAD)
    (getKey : List Nat → Except Unit (List Nat))
    (input : List Nat) : Except Unit (List Nat) :=
  if input.length < saltSize then .error ()
  else
    let salt := input.take saltSize
    match getKey salt with
    | .error e => .error e
    | .ok key =>
      match newCipher key with
      | .error e => .error e
      | .ok block =>
        match newGCM block with
        | .error _ => .ok []
        | .ok gcm => decryptLoop gcm (input.drop saltSize)

/-! ## Derived descriptions of the encryption output -/

/-- The plaintext chunks consumed by the `encryptRest` loop: maximal
`chunkSize`-byte blocks, stopping at the empty remainder. -/
def restChunks (data : List Nat) : List (List Nat) :=
  if _h : data = [] then []
  else data.take chunkSize :: restChunks (data.drop chunkSize)
termination_by data.length
decreasing_by
  simp only [List.length_drop]
  have hpos : 0 < data.length := List.length_pos.mpr _h
  simp [chunkSize]
  omega

/-- All plaintext chunks of one encryption: the first chunk (possibly
empty) followed by the chunks of the rest of the file. -/
def chunks (plaintext : List Nat) : List (List Nat) :=
  plaintext.take chunkSize :: restChunks (plaintext.drop chunkSize)

/-- The nonce used for chunk `i`: chunk 0 uses the synthetic IV `base`
verbatim; chunk `i + 1` uses `base` with its last 8 bytes overwritten by
the 64-bit big-endian counter value `i`. -/
def chunkNonce (base : List Nat) : Nat → List Nat
  | 0 => base
  | i + 1 => base.take 4 ++ toBE 8 i

/-- One chunk frame as written to the container: nonce, 4-byte
big-endian ciphertext length, ciphertext. -/
def frameBytes (gcm : AEAD) (nonce pt : List Nat) : List Nat :=
  let ct := gcm.Seal nonce pt
  nonce ++ toBE 4 ct.length ++ ct

/-- The concatenated frames for chunk list `cs`, numbering the chunks
from `i`. -/
def framesFrom (gcm : AEAD) (base : List Nat) (i : Nat) :
    List (List Nat) → List Nat
  | [] => []
  | c :: cs => frameBytes gcm (chunkNonce base i) c ++ framesFrom gcm base (i + 1) cs

/-- Concatenation of a list of chunks. -/
def joinL : List (List Nat) → List Nat
  | [] => []
  | c :: cs => c ++ joinL cs

/-! ## Lemmas about the byte encodings -/

@[simp] theorem toBE_length (n x : Nat) : (toBE n x).length = n := by
  induction n generalizing x with
  | zero => rfl
  | succ n ih => simp [toBE, ih]

theorem fromBE_append_single (l : List Nat) (b : Nat) :
    fromBE (l ++ [b]) = fromBE l * 256 + b := by
  simp [fromBE, List.foldl_append]

theorem fromBE_toBE (n x : Nat) (h : x < 2 ^ (8 * n)) : fromBE (toBE n x) = x := by
  induction n generalizing x with
  | zero =>
    simp only [Nat.mul_zero, Nat.pow_zero] at h
    have hx : x = 0 := by omega
    subst hx
    rfl
  | succ n ih =>
    have hpow : 2 ^ (8 * (n + 1)) = 256 * 2 ^ (8 * n) := by
      rw [Nat.mul_succ, Nat.pow_add]
      ring
    have hdiv : x / 256 < 2 ^ (8 * n) := by
      rw [hpow] at h
      exact Nat.div_lt_of_lt_mul h
    rw [toBE, fromBE_append_single, ih _ hdiv]
    omega

@[simp] theorem writeBuf_length (n : Nat) (src : List Nat) :
    (writeBuf n src).length = n := by
  simp [writeBuf]

@[simp] theorem sivBytes_length (block : Block) (pt : List Nat) :
    (sivBytes block pt).length = 12 := by
  simp [sivBytes]
  omega

theorem chunkNonce_length (base : List Nat) (hb : base.length = 12) (i : Nat) :
    (chunkNonce base i).length = 12 := by
  cases i with
  | zero => simpa [chunkNonce] using hb
  | succ i => simp [chunkNonce, hb]

/-! ## Lemmas about chunking -/

@[simp] theorem restChunks_nil : restChunks [] = [] := by
  rw [restChunks]
  simp

theorem restChunks_cons (data : List Nat) (h : data ≠ []) :
    restChunks data = data.take chunkSize :: restChunks (data.drop chunkSize) := by
  rw [restChunks]
  simp [h]

@[simp] theorem joinL_nil : joinL [] = [] := rfl

@[simp] theorem joinL_cons (c : List Nat) (cs : List (List Nat)) :
    joinL (c :: cs) = c ++ joinL cs := rfl

theorem joinL_restChunks (data : List Nat) : joinL (restChunks data) = data := by
  induction data using restChunks.induct with
  | case1 => simp
  | case2 d hd ih => rw [restChunks_cons d hd]; simp [ih]

theorem joinL_chunks (P : List Nat) : joinL (chunks P) = P := by
  simp [chunks, joinL_restChunks]

theorem restChunks_length_le (data : List Nat) :
    ∀ c ∈ restChunks data, c.length ≤ chunkSize := by
  induction data using restChunks.induct with
  | case1 => simp
  | case2 d hd ih =>
    rw [restChunks_cons d hd]
    intro c hc
    rcases List.mem_cons.mp hc with h | h
    · subst h
      simp [List.length_take]
    · exact ih c h

theorem chunks_length_le (P : List Nat) : ∀ c ∈ chunks P, c.length ≤ chunkSize := by
  intro c hc
  rcases List.mem_cons.mp hc with h | h
  · subst h
    simp [List.length_take]
  · exact restChunks_length_le _ c h

/-! ## The encryption output, frame by frame -/

theorem encryptRest_nil (gcm : AEAD) (base : List Nat) (k : Nat) :
    encryptRest gcm base k [] = [] := by
  rw [encryptRest]
  simp

theorem encryptRest_cons (gcm : AEAD) (base : List Nat) (k : Nat) (data : List Nat)
    (h : data ≠ []) :
    encryptRest gcm base k data =
      (base.take 4 ++ toBE 8 k) ++
        (toBE 4 ((gcm.Seal (base.take 4 ++ toBE 8 k) (data.take chunkSize)).length) ++
          (gcm.Seal (base.take 4 ++ toBE 8 k) (data.take chunkSize) ++
            encryptRest gcm base (k + 1) (data.drop chunkSize))) := by
  rw [encryptRest]
  simp [h]

theorem encryptRest_eq_framesFrom (gcm : AEAD) (base : List Nat) :
    ∀ data k, encryptRest gcm base k data =
      framesFrom gcm base (k + 1) (restChunks data) := by
  intro data
  induction data using restChunks.induct with
  | case1 =>
    intro k
    simp [encryptRest_nil, framesFrom]
  | case2 d hd ih =>
    intro k
    rw [encryptRest_cons gcm base k d hd, restChunks_cons d hd]
    simp only [framesFrom, frameBytes, chunkNonce, ih]
    simp [List.append_assoc]

theorem EncryptFile_eq (newCipher : List Nat → Except Unit Block)
    (newGCM : Block → Except Unit AEAD) (getKey : List Nat → Except Unit (List Nat))
    (salt P key : List Nat) (block : Block) (gcm : AEAD)
    (hk : getKey salt = .ok key) (hc : newCipher key = .ok block)
    (hg : newGCM block = .ok gcm) :
    EncryptFile newCipher newGCM getKey salt P =
      .ok (salt ++ framesFrom gcm (sivBytes block (P.take chunkSize)) 0 (chunks P)) := by
  simp only [EncryptFile, generateSyntheticIV, hk, hc, hg, chunks, framesFrom, frameBytes,
    chunkNonce, encryptRest_eq_framesFrom]
  simp [List.append_assoc]

/-! ## Lemmas about the decryption loop -/

@[simp] theorem decryptLoop_nil (gcm : AEAD) : decryptLoop gcm [] = .ok [] := by
  rw [decryptLoop]
  simp

theorem decryptLoop_shortNonce (gcm : AEAD) (data : List Nat) (h1 : data ≠ [])
    (h2 : data.length < 12) : decryptLoop gcm data = .error () := by
  rw [decryptLoop, dif_neg h1, if_pos h2]

theorem decryptLoop_shortLen (gcm : AEAD) (nonce rest : List Nat)
    (hn : nonce.length = 12) (hr : rest.length < 4) :
    decryptLoop gcm (nonce ++ rest) = .error () := by
  have hne : nonce ++ rest ≠ [] := by
    intro h
    have := congrArg List.length h
    simp [hn] at this
  have h12 : ¬ (nonce ++ rest).length < 12 := by
    simp [hn]
  rw [decryptLoop, dif_neg hne, if_neg h12]
  simp only [List.drop_left' hn]
  rw [if_pos hr]

theorem decryptLoop_shortCT (gcm : AEAD) (nonce lenb rest : List Nat)
    (hn : nonce.length = 12) (hl : lenb.length = 4) (hr : rest.length < fromBE lenb) :
    decryptLoop gcm (nonce ++ (lenb ++ rest)) = .error () := by
  have hne : nonce ++ (lenb ++ rest) ≠ [] := by
    intro h
    have := congrArg List.length h
    simp [hn] at this
  have h12 : ¬ (nonce ++ (lenb ++ rest)).length < 12 := by
    simp [hn]
  rw [decryptLoop, dif_neg hne, if_neg h12]
  simp only [List.drop_left' hn, List.take_left' hn]
  have h4 : ¬ (lenb ++ rest).length < 4 := by
    simp [hl]
  rw [if_neg h4]
  simp only [List.take_left' hl, List.drop_left' hl]
  rw [if_pos hr]

theorem decryptLoop_frame (gcm : AEAD) (nonce ct rest : List Nat)
    (hn : nonce.length = 12) (hct : ct.length < 2 ^ 32) :
    decryptLoop gcm (nonce ++ (toBE 4 ct.length ++ (ct ++ rest))) =
      match gcm.Open nonce ct with
      | none => .error ()
      | some pt =>
        match decryptLoop gcm rest with
        | .error e => .error e
        | .ok out => .ok (pt ++ out) := by
  have hne : nonce ++ (toBE 4 ct.length ++ (ct ++ rest)) ≠ [] := by
    intro h
    have := congrArg List.length h
    simp [hn] at this
  have h12 : ¬ (nonce ++ (toBE 4 ct.length ++ (ct ++ rest))).length < 12 := by
    simp [hn]
  rw [decryptLoop, dif_neg hne, if_neg h12]
  simp only [List.take_left' hn, List.drop_left' hn]
  have hl4 : (toBE 4 ct.length).length = 4 := toBE_length 4 _
  have h4 : ¬ (toBE 4 ct.length ++ (ct ++ rest)).length < 4 := by
    simp
  rw [if_neg h4]
  have hct' : ct.length < 2 ^ (8 * 4) := by
    simpa using hct
  simp only [List.take_left' hl4, List.drop_left' hl4, fromBE_toBE 4 ct.length hct']
  have hbody : ¬ (ct ++ rest).length < ct.length := by
    simp
  rw [if_neg hbody]
  simp only [List.take_left, List.drop_left]

theorem decryptLoop_framesFrom (gcm : AEAD) (base : List Nat)
    (hrt : ∀ n p, gcm.Open n (gcm.Seal n p) = some p)
    (hlen : ∀ n p, (gcm.Seal n p).length = p.length + 16)
    (hb : base.length = 12) :
    ∀ cs : List (List Nat), (∀ c ∈ cs, c.length ≤ chunkSize) → ∀ i,
      decryptLoop gcm (framesFrom gcm base i cs) = .ok (joinL cs) := by
  intro cs
  induction cs with
  | nil =>
    intro _ i
    simp [framesFrom]
  | cons c cs ih =>
    intro hbound i
    have hc : c.length ≤ chunkSize := hbound c (by simp)
    have hct : (gcm.Seal (chunkNonce base i) c).length < 2 ^ 32 := by
      rw [hlen]
      simp only [chunkSize] at hc
      omega
    have hstep := decryptLoop_frame gcm (chunkNonce base i) (gcm.Seal (chunkNonce base i) c)
      (framesFrom gcm base (i + 1) cs) (chunkNonce_length base hb i) hct
    simp only [framesFrom, frameBytes, List.append_assoc]
    rw [hstep, hrt, ih (fun d hd => hbound d (by simp [hd])) (i + 1)]
    simp

/-! ## DecryptFile on a well-formed container -/

theorem DecryptFile_salt_frames (newCipher : List Nat → Except Unit Block)
    (newGCM : Block → Except Unit AEAD) (getKey : List Nat → Except Unit (List Nat))
    (salt key rest : List Nat) (block : Block) (gcm : AEAD)
    (hk : getKey salt = .ok key) (hc : newCipher key = .ok block)
    (hg : newGCM block = .ok gcm) (hsalt : salt.length = saltSize) :
    DecryptFile newCipher newGCM getKey (salt ++ rest) = decryptLoop gcm rest := by
  have hlt : ¬ (salt ++ rest).length < saltSize := by
    simp [hsalt]
  simp only [DecryptFile, if_neg hlt, List.take_left' hsalt, List.drop_left' hsalt, hk, hc, hg]

/-! ## Model instances used to witness the theorems

`toyGCM` is an executable AEAD satisfying the two contracts the code
relies on (`Open` inverts `Seal`; sealing appends a 16-byte tag), and
`toyBlock` an executable 16-byte block cipher.  They stand in for the
external `crypto/aes` / `crypto/cipher` implementations when a theorem
with hypotheses is instantiated. -/

def toyBlock : Block :=
  ⟨fun _src => List.replicate 16 7⟩

def toyGCM : AEAD where
  Seal := fun _nonce pt => pt ++ List.replicate 16 0
  Open := fun _nonce ct =>
    if 16 ≤ ct.length ∧ ct.drop (ct.length - 16) = List.replicate 16 0 then
      some (ct.take (ct.length - 16))
    else none

def toyNewCipher : List Nat → Except Unit Block := fun _key => .ok toyBlock

def toyNewGCM : Block → Except Unit AEAD := fun _block => .ok toyGCM

/-- A `cipher.NewGCM` that reports a construction failure. -/
def failNewGCM : Block → Except Unit AEAD := fun _block => .error ()

def toyGetKey : List Nat → Except Unit (List Nat) := fun _salt => .ok (List.replicate 32 1)

def testSalt : List Nat := List.replicate 16 0

theorem toyGCM_roundTrip (n p : List Nat) : toyGCM.Open n (toyGCM.Seal n p) = some p := by
  simp only [toyGCM]
  have h1 : (p ++ List.replicate (16 : Nat) (0 : Nat)).length - 16 = p.length := by
    simp
  rw [h1, List.drop_left, List.take_left]
  simp

theorem toyGCM_sealLen (n p : List Nat) : (toyGCM.Seal n p).length = p.length + 16 := by
  simp [toyGCM]

/-! ## Claim theorems -/

/-- Claim C1: for every byte sequence `P`, decrypting the container
produced by encrypting `P` with the key derived from the container's
salt (the same password-derived key) succeeds and writes exactly `P` to
the output stream.  Quantified over any AEAD whose `Open` inverts
`Seal` and whose ciphertexts carry a 16-byte tag, which is the contract
of `crypto/cipher`'s GCM. -/
theorem EncryptFile_DecryptFile_roundTrip
    (newCipher : List Nat → Except Unit Block) (newGCM : Block → Except Unit AEAD)
    (getKey : List Nat → Except Unit (List Nat)) (salt P key : List Nat)
    (block : Block) (gcm : AEAD)
    (hk : getKey salt = .ok key) (hc : newCipher key = .ok block)
    (hg : newGCM block = .ok gcm)
    (hrt : ∀ n p, gcm.Open n (gcm.Seal n p) = some p)
    (hlen : ∀ n p, (gcm.Seal n p).length = p.length + 16)
    (hsalt : salt.length = saltSize) :
    ∃ out, EncryptFile newCipher newGCM getKey salt P = .ok out ∧
      DecryptFile newCipher newGCM getKey out = .ok P := by
  refine ⟨_, EncryptFile_eq newCipher newGCM getKey salt P key block gcm hk hc hg, ?_⟩
  rw [DecryptFile_salt_frames newCipher newGCM getKey salt key _ block gcm hk hc hg hsalt]
  rw [decryptLoop_framesFrom gcm _ hrt hlen (sivBytes_length block _) (chunks P)
    (chunks_length_le P) 0]
  rw [joinL_chunks]

/-- Witness for C1 at the concrete plaintext `[1, 2, 3]`. -/
theorem EncryptFile_DecryptFile_roundTrip_witness :
    toyGetKey testSalt = .ok (List.replicate 32 1) ∧
    toyNewCipher (List.replicate 32 1) = .ok toyBlock ∧
    toyNewGCM toyBlock = .ok toyGCM ∧
    testSalt.length = saltSize ∧
    (∃ out, EncryptFile toyNewCipher toyNewGCM toyGetKey testSalt [1, 2, 3] = .ok out ∧
      DecryptFile toyNewCipher toyNewGCM toyGetKey out = .ok [1, 2, 3]) :=
  ⟨rfl, rfl, rfl, by simp [testSalt, saltSize],
    EncryptFile_DecryptFile_roundTrip toyNewCipher toyNewGCM toyGetKey testSalt [1, 2, 3]
      (List.replicate 32 1) toyBlock toyGCM rfl rfl rfl toyGCM_roundTrip toyGCM_sealLen
      (by simp [testSalt, saltSize])⟩

/-! ## Further helpers for the nonce and IV claims -/

theorem fromBE_toBE_mod (n x : Nat) : fromBE (toBE n x) = x % 2 ^ (8 * n) := by
  induction n generalizing x with
  | zero => simp [toBE, fromBE, Nat.mod_one]
  | succ n ih =>
    rw [toBE, fromBE_append_single, ih]
    have hpow : 2 ^ (8 * (n + 1)) = 256 * 2 ^ (8 * n) := by
      rw [Nat.mul_succ, Nat.pow_add]
      ring
    rw [hpow, Nat.mod_mul]
    ring

theorem getD_take (l : List Nat) (n i : Nat) (h : i < n) :
    (l.take n).getD i 0 = l.getD i 0 := by
  simp [List.getD_eq_getElem?_getD, List.getElem?_take, h]

theorem xorLoop_getD (s pt : List Nat) (i : Nat) (hi : i < s.length) :
    (List.zipWith Nat.xor s pt ++ s.drop pt.length).getD i 0 =
      if i < pt.length then Nat.xor (s.getD i 0) (pt.getD i 0) else s.getD i 0 := by
  induction s generalizing pt i with
  | nil => simp at hi
  | cons a s ih =>
    cases pt with
    | nil => simp
    | cons b pt =>
      cases i with
      | zero => simp
      | succ i =>
        simp only [List.zipWith_cons_cons, List.length_cons, List.drop_succ_cons,
          List.cons_append, List.getD_cons_succ]
        have hi' : i < s.length := by simpa using hi
        rw [ih pt i hi']
        simp

/-- Claim C2: in the encryption output, chunk `i ≥ 1` is framed with the
nonce obtained from the base nonce by overwriting its last 8 bytes with
the 64-bit big-endian counter `i - 1` (0 for chunk 1, incrementing by 1
per chunk), while the nonce's first 4 bytes stay the base nonce's first
4 bytes. -/
theorem EncryptFile_chunk_nonces
    (newCipher : List Nat → Except Unit Block) (newGCM : Block → Except Unit AEAD)
    (getKey : List Nat → Except Unit (List Nat)) (salt P key base : List Nat)
    (block : Block) (gcm : AEAD)
    (hk : getKey salt = .ok key) (hc : newCipher key = .ok block)
    (hg : newGCM block = .ok gcm)
    (hbase : base = sivBytes block (P.take chunkSize)) :
    EncryptFile newCipher newGCM getKey salt P =
      .ok (salt ++ framesFrom gcm base 0 (chunks P)) ∧
    ∀ i, 1 ≤ i →
      chunkNonce base i = base.take 4 ++ toBE 8 (i - 1) ∧
      (chunkNonce base i).take 4 = base.take 4 ∧
      (chunkNonce base i).drop 4 = toBE 8 (i - 1) ∧
      fromBE ((chunkNonce base i).drop 4) = (i - 1) % 2 ^ 64 := by
  subst hbase
  refine ⟨EncryptFile_eq newCipher newGCM getKey salt P key block gcm hk hc hg, ?_⟩
  intro i hi
  obtain ⟨j, rfl⟩ : ∃ j, i = j + 1 := ⟨i - 1, by omega⟩
  have htake4 : ((sivBytes block (P.take chunkSize)).take 4).length = 4 := by
    simp
  refine ⟨rfl, ?_, ?_, ?_⟩
  · simp only [chunkNonce, Nat.add_sub_cancel]
    exact List.take_left' htake4
  · simp only [chunkNonce, Nat.add_sub_cancel]
    exact List.drop_left' htake4
  · simp only [chunkNonce, Nat.add_sub_cancel, List.drop_left' htake4]
    simpa using fromBE_toBE_mod 8 j

/-- Witness for C2: toy AEAD, plaintext `[1, 2, 3]`, chunk index 2. -/
theorem EncryptFile_chunk_nonces_witness :
    EncryptFile toyNewCipher toyNewGCM toyGetKey testSalt [1, 2, 3] =
      .ok (testSalt ++
        framesFrom toyGCM (sivBytes toyBlock ([1, 2, 3].take chunkSize)) 0 (chunks [1, 2, 3])) ∧
    chunkNonce (sivBytes toyBlock ([1, 2, 3].take chunkSize)) 2 =
      (sivBytes toyBlock ([1, 2, 3].take chunkSize)).take 4 ++ toBE 8 1 :=
  ⟨(EncryptFile_chunk_nonces toyNewCipher toyNewGCM toyGetKey testSalt [1, 2, 3]
      (List.replicate 32 1) (sivBytes toyBlock ([1, 2, 3].take chunkSize)) toyBlock toyGCM
      rfl rfl rfl rfl).1,
    ((EncryptFile_chunk_nonces toyNewCipher toyNewGCM toyGetKey testSalt [1, 2, 3]
      (List.replicate 32 1) (sivBytes toyBlock ([1, 2, 3].take chunkSize)) toyBlock toyGCM
      rfl rfl rfl rfl).2 2 (by omega)).1⟩

/-- Claim C3: the base nonce is obtained by encrypting a 16-byte
all-zero block with the raw block cipher under the derived key, taking
the first 12 bytes, and XORing them byte-by-byte with up to the first
12 bytes of the first plaintext chunk; bytes beyond the chunk's length
are left unchanged. -/
theorem generateSyntheticIV_spec
    (newCipher : List Nat → Except Unit Block) (key pt : List Nat) (block : Block)
    (hc : newCipher key = .ok block) :
    generateSyntheticIV newCipher key pt = .ok (sivBytes block pt) ∧
    (sivBytes block pt).length = 12 ∧
    ∀ i, i < 12 →
      (sivBytes block pt).getD i 0 =
        if i < pt.length then
          Nat.xor ((writeBuf 16 (block.Encrypt (List.replicate 16 0))).getD i 0) (pt.getD i 0)
        else (writeBuf 16 (block.Encrypt (List.replicate 16 0))).getD i 0 := by
  refine ⟨by simp [generateSyntheticIV, hc], sivBytes_length block pt, ?_⟩
  intro i hi
  have hlen : ((writeBuf 16 (block.Encrypt (List.replicate 16 0))).take 12).length = 12 := by
    simp
  have hgd := xorLoop_getD ((writeBuf 16 (block.Encrypt (List.replicate 16 0))).take 12) pt i
    (by rw [hlen]; exact hi)
  simp only [sivBytes]
  rw [hgd, getD_take _ 12 i hi]

/-- Witness for C3: toy block cipher, plaintext `[5]`, checked at the
XORed index 0 and the unchanged index 5. -/
theorem generateSyntheticIV_spec_witness :
    generateSyntheticIV toyNewCipher (List.replicate 32 1) [5] = .ok (sivBytes toyBlock [5]) ∧
    (sivBytes toyBlock [5]).getD 0 0 =
      Nat.xor ((writeBuf 16 (toyBlock.Encrypt (List.replicate 16 0))).getD 0 0) ([5].getD 0 0) ∧
    (sivBytes toyBlock [5]).getD 5 0 =
      (writeBuf 16 (toyBlock.Encrypt (List.replicate 16 0))).getD 5 0 :=
  ⟨(generateSyntheticIV_spec toyNewCipher (List.replicate 32 1) [5] toyBlock rfl).1,
    by
      have h := (generateSyntheticIV_spec toyNewCipher (List.replicate 32 1) [5] toyBlock
        rfl).2.2 0 (by omega)
      simpa using h,
    by
      have h := (generateSyntheticIV_spec toyNewCipher (List.replicate 32 1) [5] toyBlock
        rfl).2.2 5 (by omega)
      simpa using h⟩

/-- Claim C5: the bytes written by encryption are exactly the 16-byte
salt followed by one frame per plaintext chunk in file order, each frame
being the 12-byte nonce, the ciphertext length as a 4-byte big-endian
integer, then the ciphertext (plaintext length + 16 tag bytes); no chunk
index field and no trailing marker exist (the frame list for no chunks
is empty). -/
theorem EncryptFile_container_format
    (newCipher : List Nat → Except Unit Block) (newGCM : Block → Except Unit AEAD)
    (getKey : List Nat → Except Unit (List Nat)) (salt P key base : List Nat)
    (block : Block) (gcm : AEAD)
    (hk : getKey salt = .ok key) (hc : newCipher key = .ok block)
    (hg : newGCM block = .ok gcm)
    (hlen : ∀ n p, (gcm.Seal n p).length = p.length + 16)
    (hbase : base = sivBytes block (P.take chunkSize)) :
    EncryptFile newCipher newGCM getKey salt P =
      .ok (salt ++ framesFrom gcm base 0 (chunks P)) ∧
    (∀ i c cs, framesFrom gcm base i (c :: cs) =
      chunkNonce base i ++
        (toBE 4 ((gcm.Seal (chunkNonce base i) c).length) ++
          (gcm.Seal (chunkNonce base i) c ++ framesFrom gcm base (i + 1) cs))) ∧
    (∀ i, (chunkNonce base i).length = 12) ∧
    (∀ m, (toBE 4 m).length = 4) ∧
    (∀ nonce pt, (gcm.Seal nonce pt).length = pt.length + 16) ∧
    (∀ i, framesFrom gcm base i [] = []) := by
  subst hbase
  refine ⟨EncryptFile_eq newCipher newGCM getKey salt P key block gcm hk hc hg,
    ?_, ?_, fun m => toBE_length 4 m, hlen, fun i => rfl⟩
  · intro i c cs
    simp [framesFrom, frameBytes, List.append_assoc]
  · intro i
    exact chunkNonce_length _ (sivBytes_length block _) i

/-- Witness for C5: toy AEAD, plaintext `[9]`. -/
theorem EncryptFile_container_format_witness :
    EncryptFile toyNewCipher toyNewGCM toyGetKey testSalt [9] =
      .ok (testSalt ++
        framesFrom toyGCM (sivBytes toyBlock ([9].take chunkSize)) 0 (chunks [9])) ∧
    (chunkNonce (sivBytes toyBlock ([9].take chunkSize)) 0).length = 12 ∧
    (toBE 4 17).length = 4 :=
  ⟨(EncryptFile_container_format toyNewCipher toyNewGCM toyGetKey testSalt [9]
      (List.replicate 32 1) (sivBytes toyBlock ([9].take chunkSize)) toyBlock toyGCM
      rfl rfl rfl toyGCM_sealLen rfl).1,
    (EncryptFile_container_format toyNewCipher toyNewGCM toyGetKey testSalt [9]
      (List.replicate 32 1) (sivBytes toyBlock ([9].take chunkSize)) toyBlock toyGCM
      rfl rfl rfl toyGCM_sealLen rfl).2.2.1 0,
    (EncryptFile_container_format toyNewCipher toyNewGCM toyGetKey testSalt [9]
      (List.replicate 32 1) (sivBytes toyBlock ([9].take chunkSize)) toyBlock toyGCM
      rfl rfl rfl toyGCM_sealLen rfl).2.2.2.1 17⟩

/-- Claim C8: encrypting a zero-length input yields exactly the 16-byte
salt plus one degenerate frame whose ciphertext is the 16-byte tag of
the empty plaintext, with no further frames, and decrypting that
container yields zero-length output and success. -/
theorem EncryptFile_empty_input
    (newCipher : List Nat → Except Unit Block) (newGCM : Block → Except Unit AEAD)
    (getKey : List Nat → Except Unit (List Nat)) (salt key : List Nat)
    (block : Block) (gcm : AEAD)
    (hk : getKey salt = .ok key) (hc : newCipher key = .ok block)
    (hg : newGCM block = .ok gcm)
    (hrt : ∀ n p, gcm.Open n (gcm.Seal n p) = some p)
    (hlen : ∀ n p, (gcm.Seal n p).length = p.length + 16)
    (hsalt : salt.length = saltSize) :
    EncryptFile newCipher newGCM getKey salt [] =
      .ok (salt ++ (sivBytes block [] ++ (toBE 4 16 ++ gcm.Seal (sivBytes block []) []))) ∧
    (gcm.Seal (sivBytes block []) []).length = 16 ∧
    DecryptFile newCipher newGCM getKey
      (salt ++ (sivBytes block [] ++ (toBE 4 16 ++ gcm.Seal (sivBytes block []) []))) =
      .ok [] := by
  have h16 : (gcm.Seal (sivBytes block []) []).length = 16 := by
    rw [hlen]
    simp
  refine ⟨?_, h16, ?_⟩
  · rw [EncryptFile_eq newCipher newGCM getKey salt [] key block gcm hk hc hg]
    simp [chunks, framesFrom, frameBytes, chunkNonce, h16, List.append_assoc]
  · rw [DecryptFile_salt_frames newCipher newGCM getKey salt key _ block gcm hk hc hg hsalt]
    have hd := decryptLoop_framesFrom gcm (sivBytes block []) hrt hlen
      (sivBytes_length block []) [[]] (by simp) 0
    simpa [framesFrom, frameBytes, chunkNonce, h16, List.append_assoc] using hd

/-- Witness for C8: toy AEAD. -/
theorem EncryptFile_empty_input_witness :
    EncryptFile toyNewCipher toyNewGCM toyGetKey testSalt [] =
      .ok (testSalt ++
        (sivBytes toyBlock [] ++ (toBE 4 16 ++ toyGCM.Seal (sivBytes toyBlock []) []))) ∧
    (toyGCM.Seal (sivBytes toyBlock []) []).length = 16 ∧
    DecryptFile toyNewCipher toyNewGCM toyGetKey
      (testSalt ++
        (sivBytes toyBlock [] ++ (toBE 4 16 ++ toyGCM.Seal (sivBytes toyBlock []) []))) =
      .ok [] :=
  EncryptFile_empty_input toyNewCipher toyNewGCM toyGetKey testSalt (List.replicate 32 1)
    toyBlock toyGCM rfl rfl rfl toyGCM_roundTrip toyGCM_sealLen (by simp [testSalt, saltSize])

/-- Claim C6: after the 16-byte salt, exhaustion of the stream exactly
at a frame boundary makes decryption stop normally with success; a
partial nonce read (1-11 bytes), a truncated length field, or a
truncated ciphertext body makes decryption fail with an error. -/
theorem DecryptFile_frame_boundaries
    (newCipher : List Nat → Except Unit Block) (newGCM : Block → Except Unit AEAD)
    (getKey : List Nat → Except Unit (List Nat)) (salt key base : List Nat)
    (block : Block) (gcm : AEAD)
    (hk : getKey salt = .ok key) (hc : newCipher key = .ok block)
    (hg : newGCM block = .ok gcm)
    (hrt : ∀ n p, gcm.Open n (gcm.Seal n p) = some p)
    (hlen : ∀ n p, (gcm.Seal n p).length = p.length + 16)
    (hb : base.length = 12) (hsalt : salt.length = saltSize) :
    (∀ cs : List (List Nat), (∀ c ∈ cs, c.length ≤ chunkSize) → ∀ i,
        DecryptFile newCipher newGCM getKey (salt ++ framesFrom gcm base i cs) =
          .ok (joinL cs)) ∧
    (∀ data : List Nat, data ≠ [] → data.length < 12 →
        DecryptFile newCipher newGCM getKey (salt ++ data) = .error ()) ∧
    (∀ nonce rest : List Nat, nonce.length = 12 → rest.length < 4 →
        DecryptFile newCipher newGCM getKey (salt ++ (nonce ++ rest)) = .error ()) ∧
    (∀ nonce lenb rest : List Nat, nonce.length = 12 → lenb.length = 4 →
        rest.length < fromBE lenb →
        DecryptFile newCipher newGCM getKey (salt ++ (nonce ++ (lenb ++ rest))) =
          .error ()) := by
  refine ⟨?_, ?_, ?_, ?_⟩
  · intro cs hcs i
    rw [DecryptFile_salt_frames newCipher newGCM getKey salt key _ block gcm hk hc hg hsalt]
    exact decryptLoop_framesFrom gcm base hrt hlen hb cs hcs i
  · intro data hne hlt
    rw [DecryptFile_salt_frames newCipher newGCM getKey salt key _ block gcm hk hc hg hsalt]
    exact decryptLoop_shortNonce gcm data hne hlt
  · intro nonce rest hn hr
    rw [DecryptFile_salt_frames newCipher newGCM getKey salt key _ block gcm hk hc hg hsalt]
    exact decryptLoop_shortLen gcm nonce rest hn hr
  · intro nonce lenb rest hn hl hr
    rw [DecryptFile_salt_frames newCipher newGCM getKey salt key _ block gcm hk hc hg hsalt]
    exact decryptLoop_shortCT gcm nonce lenb rest hn hl hr

/-- Witness for C6: the four boundary cases at concrete inputs — an
empty frame list, a 1-byte partial nonce, a 2-byte truncated length
field, and a 1-byte body for a declared length of 5. -/
theorem DecryptFile_frame_boundaries_witness :
    DecryptFile toyNewCipher toyNewGCM toyGetKey
      (testSalt ++ framesFrom toyGCM (List.replicate 12 0) 0 []) = .ok (joinL []) ∧
    DecryptFile toyNewCipher toyNewGCM toyGetKey (testSalt ++ [7]) = .error () ∧
    DecryptFile toyNewCipher toyNewGCM toyGetKey
      (testSalt ++ (List.replicate 12 0 ++ [1, 2])) = .error () ∧
    DecryptFile toyNewCipher toyNewGCM toyGetKey
      (testSalt ++ (List.replicate 12 0 ++ (toBE 4 5 ++ [9]))) = .error () := by
  have h := DecryptFile_frame_boundaries toyNewCipher toyNewGCM toyGetKey testSalt
    (List.replicate 32 1) (List.replicate 12 0) toyBlock toyGCM rfl rfl rfl
    toyGCM_roundTrip toyGCM_sealLen (by simp) (by simp [testSalt, saltSize])
  exact ⟨h.1 [] (by simp) 0,
    h.2.1 [7] (by simp) (by simp),
    h.2.2.1 (List.replicate 12 0) [1, 2] (by simp) (by simp),
    h.2.2.2 (List.replicate 12 0) (toBE 4 5) [9] (by simp) (by simp) (by decide)⟩

/-- Claim C7 (refuted by the code): when `cipher.NewGCM` fails during
decryption, `DecryptFile` executes `return nil` and reports success
(with empty output written) instead of returning the error, while the
corresponding failure during encryption is correctly reported.  This
exhibits a failure path that returns success. -/
theorem DecryptFile_newGCM_failure_reports_success :
    DecryptFile toyNewCipher failNewGCM toyGetKey (testSalt ++ [1, 2, 3]) = .ok [] ∧
    EncryptFile toyNewCipher failNewGCM toyGetKey testSalt [1, 2, 3] = .error () := by
  constructor
  · rfl
  · rfl

/-! ## An oversized frame accepted by decryption (for C9) -/

/-- A 65537-byte plaintext: one byte more than a chunk. -/
def bigPT : List Nat := List.replicate 65537 1

def bigNonce : List Nat := List.replicate 12 0

/-- A container holding a single frame whose declared ciphertext length
is `65537 + 16 = 65553`, exceeding `chunkSize + 16`. -/
def bigFrameInput : List Nat :=
  testSalt ++
    (bigNonce ++ (toBE 4 ((toyGCM.Seal bigNonce bigPT).length) ++ toyGCM.Seal bigNonce bigPT))

theorem bigFrame_decrypts :
    DecryptFile toyNewCipher toyNewGCM toyGetKey bigFrameInput = .ok bigPT := by
  rw [bigFrameInput,
    DecryptFile_salt_frames toyNewCipher toyNewGCM toyGetKey testSalt (List.replicate 32 1)
      _ toyBlock toyGCM rfl rfl rfl (by simp [testSalt, saltSize])]
  have hb : bigPT.length = 65537 := by
    rw [bigPT, List.length_replicate]
  have hstep := decryptLoop_frame toyGCM bigNonce (toyGCM.Seal bigNonce bigPT) []
    (by rw [bigNonce, List.length_replicate])
    (by rw [toyGCM_sealLen, hb]; norm_num)
  rw [List.append_nil] at hstep
  rw [hstep, toyGCM_roundTrip]
  simp

/-- Claim C9 counterexample: decryption accepts a frame whose declared
ciphertext length is 65553 > 65536 + 16 and succeeds, returning its
65537-byte plaintext — the code never checks the declared length
against the chunk size. -/
theorem DecryptFile_accepts_oversized_frame :
    DecryptFile toyNewCipher toyNewGCM toyGetKey bigFrameInput = .ok bigPT ∧
    fromBE (toBE 4 ((toyGCM.Seal bigNonce bigPT).length)) = 65553 ∧
    65536 + 16 < 65553 := by
  refine ⟨bigFrame_decrypts, ?_, by omega⟩
  rw [toyGCM_sealLen]
  have h : bigPT.length = 65537 := by
    rw [bigPT, List.length_replicate]
  rw [h, fromBE_toBE 4 (65537 + 16) (by norm_num)]

/-- Claim C9 (amended): the chunk size bound holds for encryption —
every plaintext chunk processed is at most `chunkSize = 65536` bytes —
but decryption imposes no upper bound on a frame's declared ciphertext
length: it accepts any frame that authenticates, as the oversized
container `bigFrameInput` shows. -/
theorem chunkSize_bounds_encryption_only :
    (∀ P : List Nat, ∀ c ∈ chunks P, c.length ≤ chunkSize) ∧
    chunkSize = 65536 ∧
    DecryptFile toyNewCipher toyNewGCM toyGetKey bigFrameInput = .ok bigPT :=
  ⟨fun P => chunks_length_le P, rfl, bigFrame_decrypts⟩

/-- Witness for the amended C9 at the concrete chunk `[4, 5]` of the
plaintext `[4, 5]`. -/
theorem chunkSize_bounds_encryption_only_witness :
    [4, 5] ∈ chunks [4, 5] ∧ [4, 5].length ≤ chunkSize :=
  ⟨by simp [chunks, chunkSize], chunkSize_bounds_encryption_only.1 [4, 5] [4, 5]
    (by simp [chunks, chunkSize])⟩

/-- Claim C10: decryption uses each frame's stored nonce verbatim and
never checks it against the frame's position: for any two-chunk
plaintext `c0 ++ c1`, swapping the two complete frames of its container
still decrypts successfully, producing the two plaintext chunks in
swapped order. -/
theorem DecryptFile_accepts_swapped_frames
    (newCipher : List Nat → Except Unit Block) (newGCM : Block → Except Unit AEAD)
    (getKey : List Nat → Except Unit (List Nat)) (salt key base c0 c1 : List Nat)
    (block : Block) (gcm : AEAD)
    (hk : getKey salt = .ok key) (hc : newCipher key = .ok block)
    (hg : newGCM block = .ok gcm)
    (hrt : ∀ n p, gcm.Open n (gcm.Seal n p) = some p)
    (hlen : ∀ n p, (gcm.Seal n p).length = p.length + 16)
    (hsalt : salt.length = saltSize)
    (h0 : c0.length = chunkSize) (h1 : c1.length ≤ chunkSize) (h1ne : c1 ≠ [])
    (hbase : base = sivBytes block c0) :
    EncryptFile newCipher newGCM getKey salt (c0 ++ c1) =
      .ok (salt ++ (frameBytes gcm (chunkNonce base 0) c0 ++
        frameBytes gcm (chunkNonce base 1) c1)) ∧
    DecryptFile newCipher newGCM getKey
      (salt ++ (frameBytes gcm (chunkNonce base 1) c1 ++
        frameBytes gcm (chunkNonce base 0) c0)) = .ok (c1 ++ c0) := by
  have hbl : base.length = 12 := by
    rw [hbase]
    exact sivBytes_length block c0
  have hchunks : chunks (c0 ++ c1) = [c0, c1] := by
    rw [chunks, List.take_left' h0, List.drop_left' h0, restChunks_cons c1 h1ne,
      List.take_of_length_le h1, List.drop_eq_nil_of_le h1, restChunks_nil]
  have hct0 : (gcm.Seal (chunkNonce base 0) c0).length < 2 ^ 32 := by
    rw [hlen]
    simp only [chunkSize] at h0
    omega
  have hct1 : (gcm.Seal (chunkNonce base 1) c1).length < 2 ^ 32 := by
    rw [hlen]
    simp only [chunkSize] at h1
    omega
  constructor
  · rw [EncryptFile_eq newCipher newGCM getKey salt (c0 ++ c1) key block gcm hk hc hg,
      List.take_left' h0, ← hbase, hchunks]
    simp [framesFrom]
  · rw [DecryptFile_salt_frames newCipher newGCM getKey salt key _ block gcm hk hc hg hsalt]
    have hstep0 := decryptLoop_frame gcm (chunkNonce base 0) (gcm.Seal (chunkNonce base 0) c0)
      [] (chunkNonce_length base hbl 0) hct0
    rw [List.append_nil] at hstep0
    have hstep1 := decryptLoop_frame gcm (chunkNonce base 1) (gcm.Seal (chunkNonce base 1) c1)
      (frameBytes gcm (chunkNonce base 0) c0) (chunkNonce_length base hbl 1) hct1
    simp only [frameBytes, List.append_assoc] at hstep0 hstep1 ⊢
    rw [hstep1, hrt]
    simp [hstep0, hrt]

/-- Witness for C10: toy AEAD, chunk 0 the 65536 zero bytes, chunk 1
the single byte `[1]`. -/
theorem DecryptFile_accepts_swapped_frames_witness :
    EncryptFile toyNewCipher toyNewGCM toyGetKey testSalt (List.replicate 65536 0 ++ [1]) =
      .ok (testSalt ++
        (frameBytes toyGCM (chunkNonce (sivBytes toyBlock (List.replicate 65536 0)) 0)
            (List.replicate 65536 0) ++
          frameBytes toyGCM (chunkNonce (sivBytes toyBlock (List.replicate 65536 0)) 1)
            [1])) ∧
    DecryptFile toyNewCipher toyNewGCM toyGetKey
      (testSalt ++
        (frameBytes toyGCM (chunkNonce (sivBytes toyBlock (List.replicate 65536 0)) 1)
            [1] ++
          frameBytes toyGCM (chunkNonce (sivBytes toyBlock (List.replicate 65536 0)) 0)
            (List.replicate 65536 0))) = .ok ([1] ++ List.replicate 65536 0) :=
  DecryptFile_accepts_swapped_frames toyNewCipher toyNewGCM toyGetKey testSalt
    (List.replicate 32 1) (sivBytes toyBlock (List.replicate 65536 0))
    (List.replicate 65536 0) [1] toyBlock toyGCM rfl rfl rfl toyGCM_roundTrip toyGCM_sealLen
    (by rw [testSalt, List.length_replicate]; rfl)
    (by rw [List.length_replicate]; rfl)
    (by decide) (by simp) rfl

end FileEncryption
